import Mathlib

/-!
Verification development for the RoomDetectionAI geometry pipeline.

The Python sources are shallowly embedded over exact rationals and integers:
float arithmetic becomes arithmetic in ℚ, Python int() becomes truncation
toward zero, Python // becomes floor division, Python lists become List,
and a Python IndexError becomes Option.none.  Each definition cites the
source file and lines it embeds; definitions marked "Modelled from the spec"
embed behaviour of an external collaborator (scipy's connected-component
labelling) that is not part of the repository's own code.
-/

/-- Python's int() conversion applied to an exact rational: truncation toward
zero (floor for nonnegative values, ceiling for negative ones). -/
def pyInt (q : ℚ) : ℤ := if 0 ≤ q then ⌊q⌋ else ⌈q⌉

/-- Clamp an integer into the range [0, r]: max(0, min(r, v)). -/
def clampTo (r v : ℤ) : ℤ := max 0 (min r v)

/-- A bounding box with exact-rational coordinates, [x_min, y_min, x_max, y_max]. -/
structure QBox where
  x_min : ℚ
  y_min : ℚ
  x_max : ℚ
  y_max : ℚ
  deriving DecidableEq, Repr

/-- A bounding box with integer coordinates, [x_min, y_min, x_max, y_max]. -/
structure ZBox where
  x_min : ℤ
  y_min : ℤ
  x_max : ℤ
  y_max : ℤ
  deriving DecidableEq, Repr

/-- src/lambda/utils/coordinate_transformer.py, transform_coordinates_to_normalized
(lines 7-47): divide each coordinate by the image dimension, scale by 1000,
convert with int(), then clamp each coordinate independently into [0, 1000]. -/
def transform_coordinates_to_normalized (b : QBox) (image_width image_height : ℤ) : ZBox :=
  let x_min_norm : ℚ := b.x_min / image_width
  let y_min_norm : ℚ := b.y_min / image_height
  let x_max_norm : ℚ := b.x_max / image_width
  let y_max_norm : ℚ := b.y_max / image_height
  let x_min_1000 := pyInt (x_min_norm * 1000)
  let y_min_1000 := pyInt (y_min_norm * 1000)
  let x_max_1000 := pyInt (x_max_norm * 1000)
  let y_max_1000 := pyInt (y_max_norm * 1000)
  ⟨clampTo 1000 x_min_1000, clampTo 1000 y_min_1000,
   clampTo 1000 x_max_1000, clampTo 1000 y_max_1000⟩

/-- src/other/extract_rooms_from_svg.py, normalize_coordinates (lines 40-59): the
same int()-then-clamp normalization, with the target range as a parameter. -/
def normalize_coordinates (bbox : QBox) (svg_width svg_height : ℚ) (target_range : ℤ) : ZBox :=
  let norm_x_min := pyInt (bbox.x_min / svg_width * (target_range : ℚ))
  let norm_y_min := pyInt (bbox.y_min / svg_height * (target_range : ℚ))
  let norm_x_max := pyInt (bbox.x_max / svg_width * (target_range : ℚ))
  let norm_y_max := pyInt (bbox.y_max / svg_height * (target_range : ℚ))
  ⟨clampTo target_range norm_x_min, clampTo target_range norm_y_min,
   clampTo target_range norm_x_max, clampTo target_range norm_y_max⟩

/-- The spec's fixed-range normalization formula for one coordinate:
round(value / dimension * 1000), then clamp to [0, 1000]. -/
def specRoundClamp (value dimension : ℚ) : ℤ := clampTo 1000 (round (value / dimension * 1000))

/-- What the code actually computes for one coordinate: int() truncation toward
zero of value / dimension * 1000, then clamp to [0, 1000]. -/
def truncClamp (value dimension : ℚ) : ℤ := clampTo 1000 (pyInt (value / dimension * 1000))

lemma clampTo_nonneg (r v : ℤ) : 0 ≤ clampTo r v := le_max_left 0 _

lemma clampTo_le (r v : ℤ) (h : 0 ≤ r) : clampTo r v ≤ r :=
  max_le h (min_le_left r v)

/-- C1 counterexample: at the box (0, 0, 2, 2) with a 3×3 image, the code returns
x_max = 666 (int() truncation of 2000/3), while the claim's round-then-clamp
formula gives 667. -/
theorem C1_counterexample :
    transform_coordinates_to_normalized ⟨0, 0, 2, 2⟩ 3 3 = ⟨0, 0, 666, 666⟩ ∧
    specRoundClamp 2 3 = 667 ∧ (666 : ℤ) ≠ 667 := by
  refine ⟨?_, ?_, by decide⟩
  · simp only [transform_coordinates_to_normalized]
    norm_num [pyInt, clampTo, ZBox.mk.injEq]
  · norm_num [specRoundClamp, round_eq, clampTo]

/-- C1 (amended): for every box and positive image dimensions the returned
coordinates equal the trunc-then-clamp (int() toward zero, then clamp to
[0, 1000]) of each input coordinate, applied independently; the SVG-side
normalize_coordinates agrees with the Lambda-side transformer at target 1000;
and every output coordinate lies in [0, 1000]. -/
theorem C1_amended (b : QBox) (w h : ℤ) (hw : 0 < w) (hh : 0 < h) :
    transform_coordinates_to_normalized b w h =
      ⟨truncClamp b.x_min (w : ℚ), truncClamp b.y_min (h : ℚ),
       truncClamp b.x_max (w : ℚ), truncClamp b.y_max (h : ℚ)⟩ ∧
    normalize_coordinates b (w : ℚ) (h : ℚ) 1000 = transform_coordinates_to_normalized b w h ∧
    (0 ≤ (transform_coordinates_to_normalized b w h).x_min ∧
      (transform_coordinates_to_normalized b w h).x_min ≤ 1000) ∧
    (0 ≤ (transform_coordinates_to_normalized b w h).y_min ∧
      (transform_coordinates_to_normalized b w h).y_min ≤ 1000) ∧
    (0 ≤ (transform_coordinates_to_normalized b w h).x_max ∧
      (transform_coordinates_to_normalized b w h).x_max ≤ 1000) ∧
    (0 ≤ (transform_coordinates_to_normalized b w h).y_max ∧
      (transform_coordinates_to_normalized b w h).y_max ≤ 1000) := by
  refine ⟨rfl, rfl, ?_, ?_, ?_, ?_⟩ <;>
    exact ⟨clampTo_nonneg _ _, clampTo_le _ _ (by norm_num)⟩

/-- C1 witness: the amended theorem evaluated at the box (-5, 0, 2, 7) with a
3×2 image. -/
theorem C1_witness :
    transform_coordinates_to_normalized ⟨-5, 0, 2, 7⟩ 3 2 =
      ⟨truncClamp (-5) ((3 : ℤ) : ℚ), truncClamp 0 ((2 : ℤ) : ℚ),
       truncClamp 2 ((3 : ℤ) : ℚ), truncClamp 7 ((2 : ℤ) : ℚ)⟩ :=
  (C1_amended ⟨-5, 0, 2, 7⟩ 3 2 (by norm_num) (by norm_num)).1

/-- src/lambda/utils/image_processor.py, resize_image line 27 (recomputed at
src/lambda/utils/coordinate_transformer.py, transform_bounding_box line 78): the
aspect-preserving scale factor min(target_w / original_w, target_h / original_h). -/
def letterboxScale (ow oh rw rh : ℤ) : ℚ := min ((rw : ℚ) / (ow : ℚ)) ((rh : ℚ) / (oh : ℚ))

/-- resize_image line 30 (transform_bounding_box line 81):
new_width = int(original_width * scale). -/
def letterboxNewW (ow oh rw rh : ℤ) : ℤ := pyInt ((ow : ℚ) * letterboxScale ow oh rw rh)

/-- resize_image line 31 (transform_bounding_box line 82):
new_height = int(original_height * scale). -/
def letterboxNewH (ow oh rw rh : ℤ) : ℤ := pyInt ((oh : ℚ) * letterboxScale ow oh rw rh)

/-- resize_image line 38 (transform_bounding_box line 83): the horizontal centering
paste offset (target_w - new_width) // 2 with Python floor division. -/
def letterboxPadX (ow oh rw rh : ℤ) : ℤ := Int.fdiv (rw - letterboxNewW ow oh rw rh) 2

/-- resize_image line 39 (transform_bounding_box line 84): the vertical centering
paste offset (target_h - new_height) // 2. -/
def letterboxPadY (ow oh rw rh : ℤ) : ℤ := Int.fdiv (rh - letterboxNewH ow oh rw rh) 2

/-- resize_image (src/lambda/utils/image_processor.py lines 11-42) at the
coordinate level: the content is resampled to new_width × new_height - the
integer-truncated dimensions of lines 30-31, so a pixel coordinate scales by
new_width / original_width on the x axis and new_height / original_height on the
y axis, not by the exact scale factor - and the centered paste of line 40 then
adds the padding offset. -/
def resize_image_box (b : QBox) (ow oh rw rh : ℤ) : QBox :=
  ⟨b.x_min * ((letterboxNewW ow oh rw rh : ℚ) / (ow : ℚ)) + letterboxPadX ow oh rw rh,
   b.y_min * ((letterboxNewH ow oh rw rh : ℚ) / (oh : ℚ)) + letterboxPadY ow oh rw rh,
   b.x_max * ((letterboxNewW ow oh rw rh : ℚ) / (ow : ℚ)) + letterboxPadX ow oh rw rh,
   b.y_max * ((letterboxNewH ow oh rw rh : ℚ) / (oh : ℚ)) + letterboxPadY ow oh rw rh⟩

/-- transform_bounding_box lines 87-90: the inversion back to original image
coordinates - subtract the padding offset, divide by the scale factor. -/
def invertLetterbox (b : QBox) (ow oh rw rh : ℤ) : QBox :=
  ⟨(b.x_min - letterboxPadX ow oh rw rh) / letterboxScale ow oh rw rh,
   (b.y_min - letterboxPadY ow oh rw rh) / letterboxScale ow oh rw rh,
   (b.x_max - letterboxPadX ow oh rw rh) / letterboxScale ow oh rw rh,
   (b.y_max - letterboxPadY ow oh rw rh) / letterboxScale ow oh rw rh⟩

/-- transform_bounding_box lines 50-97, whole function: invert the letterbox and
then normalize to the 0-1000 range against the original dimensions. -/
def transform_bounding_box (b : QBox) (ow oh rw rh : ℤ) : ZBox :=
  transform_coordinates_to_normalized (invertLetterbox b ow oh rw rh) ow oh

lemma letterboxScale_pos (ow oh rw rh : ℤ) (how : 0 < ow) (hoh : 0 < oh)
    (hrw : 0 < rw) (hrh : 0 < rh) : 0 < letterboxScale ow oh rw rh := by
  have h1 : (0 : ℚ) < (rw : ℚ) / (ow : ℚ) :=
    div_pos (by exact_mod_cast hrw) (by exact_mod_cast how)
  have h2 : (0 : ℚ) < (rh : ℚ) / (oh : ℚ) :=
    div_pos (by exact_mod_cast hrh) (by exact_mod_cast hoh)
  exact lt_min h1 h2

lemma pyInt_le_self (q : ℚ) (h : 0 ≤ q) : (pyInt q : ℚ) ≤ q := by
  rw [pyInt, if_pos h]
  exact_mod_cast Int.floor_le q

lemma roundtrip_err (x c s nwq : ℚ) (hc : 0 < c) (hs : 0 < s) (hnw : nwq ≤ c * s)
    (hx0 : 0 ≤ x) (hxle : x ≤ c) : |x * nwq / (c * s) - x| ≤ (c * s - nwq) / s := by
  have hcs : 0 < c * s := mul_pos hc hs
  have hD : 0 ≤ c * s - nwq := by linarith
  have heq : x * nwq / (c * s) - x = -(x * (c * s - nwq) / (c * s)) := by
    field_simp
    ring
  rw [heq, abs_neg, abs_of_nonneg (div_nonneg (mul_nonneg hx0 hD) (le_of_lt hcs))]
  have h1 : x * (c * s - nwq) ≤ c * (c * s - nwq) := mul_le_mul_of_nonneg_right hxle hD
  calc x * (c * s - nwq) / (c * s) ≤ c * (c * s - nwq) / (c * s) := by gcongr
    _ = (c * s - nwq) / s := mul_div_mul_left _ _ (ne_of_gt hc)

/-- C2 counterexample: a 10000×999 image letterboxed to 640×640 has scale 8/125 and
new_height = int(63.936) = 63, so the bottom edge y = 999 of the full-image box maps
forward to 63 + 288 and inverts to 63 / (8/125) = 7875/8 = 984.375 - an error of
14.625 pixels, far beyond the claimed 1 pixel of rounding error. -/
theorem C2_counterexample :
    (invertLetterbox (resize_image_box ⟨0, 0, 10000, 999⟩ 10000 999 640 640)
        10000 999 640 640).y_max = 7875 / 8 ∧
    |(7875 : ℚ) / 8 - 999| > 1 := by
  have hs : letterboxScale 10000 999 640 640 = 8 / 125 := by
    norm_num [letterboxScale, min_def]
  have hnh : letterboxNewH 10000 999 640 640 = 63 := by
    rw [letterboxNewH, hs]
    norm_num [pyInt]
  have hpy : letterboxPadY 10000 999 640 640 = 288 := by
    rw [letterboxPadY, hnh]
    decide
  constructor
  · simp only [invertLetterbox, resize_image_box]
    rw [hnh, hpy, hs]
    norm_num
  · have h : (7875 : ℚ) / 8 - 999 = -(117 / 8) := by norm_num
    rw [h, abs_neg, abs_of_nonneg (by norm_num)]
    norm_num

/-- C2 (amended): the transformer's inversion exactly undoes scaling by the
min-ratio plus padding, but the repository's forward resize (resize_image)
resamples to the integer-truncated dimensions new_width = int(ow·scale) and
new_height = int(oh·scale); the round trip therefore returns coordinate
v · new_width/(ow·scale) on the x axis (new_height/(oh·scale) on y).  It recovers
the box exactly - in particular within 1 pixel - whenever the truncation loses
nothing on both axes, and in general a coordinate inside the image errs by at most
(dim·scale − int(dim·scale))/scale pixels, a bound that can exceed 1 pixel. -/
theorem C2_amended (b : QBox) (ow oh rw rh : ℤ)
    (how : 0 < ow) (hoh : 0 < oh) (hrw : 0 < rw) (hrh : 0 < rh) :
    invertLetterbox (resize_image_box b ow oh rw rh) ow oh rw rh =
      ⟨b.x_min * (letterboxNewW ow oh rw rh : ℚ) /
          ((ow : ℚ) * letterboxScale ow oh rw rh),
       b.y_min * (letterboxNewH ow oh rw rh : ℚ) /
          ((oh : ℚ) * letterboxScale ow oh rw rh),
       b.x_max * (letterboxNewW ow oh rw rh : ℚ) /
          ((ow : ℚ) * letterboxScale ow oh rw rh),
       b.y_max * (letterboxNewH ow oh rw rh : ℚ) /
          ((oh : ℚ) * letterboxScale ow oh rw rh)⟩ ∧
    (((ow : ℚ) * letterboxScale ow oh rw rh = (letterboxNewW ow oh rw rh : ℚ)) →
      ((oh : ℚ) * letterboxScale ow oh rw rh = (letterboxNewH ow oh rw rh : ℚ)) →
      invertLetterbox (resize_image_box b ow oh rw rh) ow oh rw rh = b) ∧
    (0 ≤ b.x_min → b.x_min ≤ (ow : ℚ) →
      |(invertLetterbox (resize_image_box b ow oh rw rh) ow oh rw rh).x_min - b.x_min| ≤
        ((ow : ℚ) * letterboxScale ow oh rw rh - (letterboxNewW ow oh rw rh : ℚ)) /
          letterboxScale ow oh rw rh) ∧
    (0 ≤ b.y_min → b.y_min ≤ (oh : ℚ) →
      |(invertLetterbox (resize_image_box b ow oh rw rh) ow oh rw rh).y_min - b.y_min| ≤
        ((oh : ℚ) * letterboxScale ow oh rw rh - (letterboxNewH ow oh rw rh : ℚ)) /
          letterboxScale ow oh rw rh) ∧
    (0 ≤ b.x_max → b.x_max ≤ (ow : ℚ) →
      |(invertLetterbox (resize_image_box b ow oh rw rh) ow oh rw rh).x_max - b.x_max| ≤
        ((ow : ℚ) * letterboxScale ow oh rw rh - (letterboxNewW ow oh rw rh : ℚ)) /
          letterboxScale ow oh rw rh) ∧
    (0 ≤ b.y_max → b.y_max ≤ (oh : ℚ) →
      |(invertLetterbox (resize_image_box b ow oh rw rh) ow oh rw rh).y_max - b.y_max| ≤
        ((oh : ℚ) * letterboxScale ow oh rw rh - (letterboxNewH ow oh rw rh : ℚ)) /
          letterboxScale ow oh rw rh) := by
  obtain ⟨x0, y0, x1, y1⟩ := b
  have hs : 0 < letterboxScale ow oh rw rh := letterboxScale_pos ow oh rw rh how hoh hrw hrh
  have howq : (0 : ℚ) < (ow : ℚ) := by exact_mod_cast how
  have hohq : (0 : ℚ) < (oh : ℚ) := by exact_mod_cast hoh
  have hnwle : (letterboxNewW ow oh rw rh : ℚ) ≤ (ow : ℚ) * letterboxScale ow oh rw rh :=
    pyInt_le_self _ (le_of_lt (mul_pos howq hs))
  have hnhle : (letterboxNewH ow oh rw rh : ℚ) ≤ (oh : ℚ) * letterboxScale ow oh rw rh :=
    pyInt_le_self _ (le_of_lt (mul_pos hohq hs))
  have hform : invertLetterbox (resize_image_box ⟨x0, y0, x1, y1⟩ ow oh rw rh) ow oh rw rh =
      ⟨x0 * (letterboxNewW ow oh rw rh : ℚ) / ((ow : ℚ) * letterboxScale ow oh rw rh),
       y0 * (letterboxNewH ow oh rw rh : ℚ) / ((oh : ℚ) * letterboxScale ow oh rw rh),
       x1 * (letterboxNewW ow oh rw rh : ℚ) / ((ow : ℚ) * letterboxScale ow oh rw rh),
       y1 * (letterboxNewH ow oh rw rh : ℚ) / ((oh : ℚ) * letterboxScale ow oh rw rh)⟩ := by
    simp only [invertLetterbox, resize_image_box, QBox.mk.injEq]
    refine ⟨?_, ?_, ?_, ?_⟩ <;> rw [add_sub_cancel_right, mul_div_assoc, div_div, ← mul_div_assoc]
  refine ⟨hform, ?_, ?_, ?_, ?_, ?_⟩
  · intro h1 h2
    rw [hform]
    simp only [QBox.mk.injEq]
    rw [← h1, ← h2]
    refine ⟨?_, ?_, ?_, ?_⟩ <;>
      first
        | exact mul_div_cancel_right₀ _ (ne_of_gt (mul_pos howq hs))
        | exact mul_div_cancel_right₀ _ (ne_of_gt (mul_pos hohq hs))
  · intro hx0 hxle
    rw [hform]
    exact roundtrip_err x0 (ow : ℚ) (letterboxScale ow oh rw rh) _ howq hs hnwle hx0 hxle
  · intro hy0 hyle
    rw [hform]
    exact roundtrip_err y0 (oh : ℚ) (letterboxScale ow oh rw rh) _ hohq hs hnhle hy0 hyle
  · intro hx0 hxle
    rw [hform]
    exact roundtrip_err x1 (ow : ℚ) (letterboxScale ow oh rw rh) _ howq hs hnwle hx0 hxle
  · intro hy0 hyle
    rw [hform]
    exact roundtrip_err y1 (oh : ℚ) (letterboxScale ow oh rw rh) _ hohq hs hnhle hy0 hyle

/-- src/other/wall_detection.py, snap_to_wall line 78: Python's
min(wall_positions, key=lambda w: abs(w - value)) - the first wall of the list
whose distance to the value is minimal. -/
def nearest_wall (value : ℚ) : List ℚ → ℚ
  | [] => value
  | w :: ws => ws.foldl (fun best u => if |u - value| < |best - value| then u else best) w

/-- snap_to_wall (src/other/wall_detection.py lines 70-84): replace the value with
the nearest wall position when that wall is within the snap threshold. -/
def snap_to_wall (value : ℚ) (wall_positions : List ℚ) (snap_threshold : ℚ) : ℚ :=
  if wall_positions = [] then value
  else if |nearest_wall value wall_positions - value| ≤ snap_threshold then
    nearest_wall value wall_positions
  else value

/-- snap_bbox_to_walls (src/other/wall_detection.py lines 86-108): snap the left and
right edges to vertical walls and the top and bottom edges to horizontal walls, then
repair a collapsed box by pushing the max edge one unit past the min edge. -/
def snap_bbox_to_walls (bbox : QBox) (h_walls v_walls : List ℚ) (snap_threshold : ℚ) : QBox :=
  let x0 := snap_to_wall bbox.x_min v_walls snap_threshold
  let x1 := snap_to_wall bbox.x_max v_walls snap_threshold
  let y0 := snap_to_wall bbox.y_min h_walls snap_threshold
  let y1 := snap_to_wall bbox.y_max h_walls snap_threshold
  let x1 := if x1 ≤ x0 then x0 + 1 else x1
  let y1 := if y1 ≤ y0 then y0 + 1 else y1
  ⟨x0, y0, x1, y1⟩

lemma nearest_wall_foldl (value : ℚ) (ws : List ℚ) : ∀ b : ℚ,
    (ws.foldl (fun best u => if |u - value| < |best - value| then u else best) b ∈ b :: ws) ∧
    ∀ u ∈ b :: ws,
      |ws.foldl (fun best u => if |u - value| < |best - value| then u else best) b - value| ≤
        |u - value| := by
  induction ws with
  | nil => exact fun b => ⟨List.mem_singleton_self b, by simp⟩
  | cons w ws ih =>
      intro b
      simp only [List.foldl_cons]
      by_cases h : |w - value| < |b - value|
      · rw [if_pos h]
        obtain ⟨hmem, hle⟩ := ih w
        refine ⟨?_, ?_⟩
        · rcases List.mem_cons.mp hmem with h1 | h1
          · rw [h1]; exact List.mem_cons_of_mem b (List.mem_cons_self w ws)
          · exact List.mem_cons_of_mem b (List.mem_cons_of_mem w h1)
        · intro u hu
          rcases List.mem_cons.mp hu with h1 | h1
          · rw [h1]
            exact le_of_lt (lt_of_le_of_lt (hle w (List.mem_cons_self w ws)) h)
          · rcases List.mem_cons.mp h1 with h2 | h2
            · rw [h2]; exact hle w (List.mem_cons_self w ws)
            · exact hle u (List.mem_cons_of_mem w h2)
      · rw [if_neg h]
        obtain ⟨hmem, hle⟩ := ih b
        refine ⟨?_, ?_⟩
        · rcases List.mem_cons.mp hmem with h1 | h1
          · rw [h1]; exact List.mem_cons_self b (w :: ws)
          · exact List.mem_cons_of_mem b (List.mem_cons_of_mem w h1)
        · intro u hu
          rcases List.mem_cons.mp hu with h1 | h1
          · rw [h1]; exact hle b (List.mem_cons_self b ws)
          · rcases List.mem_cons.mp h1 with h2 | h2
            · rw [h2]
              exact le_trans (hle b (List.mem_cons_self b ws)) (le_of_not_lt h)
            · exact hle u (List.mem_cons_of_mem b h2)

lemma nearest_wall_spec (value : ℚ) (w : ℚ) (ws : List ℚ) :
    nearest_wall value (w :: ws) ∈ w :: ws ∧
      ∀ u ∈ w :: ws, |nearest_wall value (w :: ws) - value| ≤ |u - value| :=
  nearest_wall_foldl value ws w

/-- C3: snapping replaces an edge only by a nearest wall within the snap tolerance;
the returned box always satisfies x_max > x_min and y_max > y_min; and on the spec's
collapse scenario - box (10, 10, 12, 50) with one vertical wall at 11, tolerance 15 -
both x edges snap to 11 and the repair expands x_max back to 12. -/
theorem C3_wall_snapping :
    (∀ (bbox : QBox) (h_walls v_walls : List ℚ) (t : ℚ),
        (snap_bbox_to_walls bbox h_walls v_walls t).x_min <
          (snap_bbox_to_walls bbox h_walls v_walls t).x_max ∧
        (snap_bbox_to_walls bbox h_walls v_walls t).y_min <
          (snap_bbox_to_walls bbox h_walls v_walls t).y_max) ∧
    (∀ (v : ℚ) (ws : List ℚ) (t : ℚ),
        snap_to_wall v ws t = v ∨
          ∃ w ∈ ws, snap_to_wall v ws t = w ∧ |w - v| ≤ t ∧
            ∀ u ∈ ws, |w - v| ≤ |u - v|) ∧
    snap_bbox_to_walls ⟨10, 10, 12, 50⟩ [] [11] 15 = ⟨11, 10, 12, 50⟩ := by
  refine ⟨?_, ?_, ?_⟩
  · intro bbox h_walls v_walls t
    simp only [snap_bbox_to_walls]
    constructor
    · split
      · exact lt_add_one _
      · exact lt_of_not_le (by assumption)
    · split
      · exact lt_add_one _
      · exact lt_of_not_le (by assumption)
  · intro v ws t
    cases ws with
    | nil => left; rfl
    | cons w₀ ws₀ =>
        by_cases h : |nearest_wall v (w₀ :: ws₀) - v| ≤ t
        · right
          obtain ⟨hmem, hle⟩ := nearest_wall_spec v w₀ ws₀
          exact ⟨nearest_wall v (w₀ :: ws₀), hmem,
            by rw [snap_to_wall, if_neg (by simp), if_pos h], h, hle⟩
        · left
          rw [snap_to_wall, if_neg (by simp), if_neg h]
  · norm_num [snap_bbox_to_walls, snap_to_wall, nearest_wall]

/-- src/auto_offset_correction.py lines 111 and 125: the candidate offsets
range(-50, 51, 5), a sparse 21-point grid in ascending order. -/
def offsetCandidates : List ℤ := (List.range 21).map (fun i => -50 + 5 * (i : ℤ))

/-- detect_offset_by_wall_alignment lines 112-119 (and 126-133), inner loops: the
number of edges that, after adding the candidate offset, land strictly within
10 px of some detected wall. -/
def matchCount (edges walls : List ℤ) (off : ℤ) : ℕ :=
  (edges.filter (fun e => walls.any (fun w => decide (|e + off - w| < 10)))).length

/-- detect_offset_by_wall_alignment lines 105-122: scan the candidates in ascending
order, keeping the first offset whose match count strictly exceeds every count seen
so far; 0 when no candidate beats zero matches. -/
def bestOffsetScan (count : ℤ → ℕ) : ℤ :=
  (offsetCandidates.foldl (fun b o => if count o > b.2 then (o, count o) else b)
    ((0 : ℤ), (0 : ℕ))).1

/-- The offset search of one axis: edges against walls of the same orientation. -/
def bestOffset1D (edges walls : List ℤ) : ℤ := bestOffsetScan (matchCount edges walls)

/-- detect_offset_by_wall_alignment (src/auto_offset_correction.py lines 104-138),
the grid search for both axes: vertical edges against vertical walls give offset_x,
horizontal edges against horizontal walls give offset_y. -/
def detect_offset_by_wall_alignment (v_edges h_edges v_walls h_walls : List ℤ) : ℤ × ℤ :=
  (bestOffset1D v_edges v_walls, bestOffset1D h_edges h_walls)

lemma bestOffsetScan_of_zero (count : ℤ → ℕ)
    (h : ∀ o ∈ offsetCandidates, count o = 0) : bestOffsetScan count = 0 := by
  have key : ∀ (l : List ℤ) (b : ℤ × ℕ), (∀ o ∈ l, count o = 0) →
      l.foldl (fun b o => if count o > b.2 then (o, count o) else b) b = b := by
    intro l
    induction l with
    | nil => intro b _; rfl
    | cons o l ih =>
        intro b hb
        simp only [List.foldl_cons]
        rw [if_neg, ih b (fun o' ho' => hb o' (List.mem_cons_of_mem o ho'))]
        rw [hb o (List.mem_cons_self o l)]
        exact Nat.not_lt_zero b.2
  rw [bestOffsetScan, key offsetCandidates ((0 : ℤ), (0 : ℕ)) h]

lemma matchCount_nil_edges (walls : List ℤ) (off : ℤ) : matchCount [] walls off = 0 := rfl

lemma matchCount_nil_walls (edges : List ℤ) (off : ℤ) : matchCount edges [] off = 0 := by
  simp [matchCount]

/-- C4 counterexample: with one room's edges (100, 200 in both axes), an empty
vertical wall list but horizontal walls at 95 and 195, the corrector returns
(0, -10), not (0, 0) - an empty wall list in one axis does not force the identity
offset in the other. -/
theorem C4_counterexample :
    detect_offset_by_wall_alignment [100, 200] [100, 200] [] [95, 195] = (0, -10) ∧
    ((0 : ℤ), (-10 : ℤ)) ≠ ((0 : ℤ), (0 : ℤ)) := by
  constructor
  · decide
  · decide

/-- C4 (amended): the corrector never fails (it is a total function), and it returns
the identity offset (0, 0) whenever both edge sets are empty, or both wall lists are
empty, or no candidate offset in either axis achieves a single match; an empty edge
set or wall list in one axis forces only that axis's offset to 0. -/
theorem C4_amended (v_edges h_edges v_walls h_walls : List ℤ) :
    (v_edges = [] → (detect_offset_by_wall_alignment v_edges h_edges v_walls h_walls).1 = 0) ∧
    (h_edges = [] → (detect_offset_by_wall_alignment v_edges h_edges v_walls h_walls).2 = 0) ∧
    (v_walls = [] → (detect_offset_by_wall_alignment v_edges h_edges v_walls h_walls).1 = 0) ∧
    (h_walls = [] → (detect_offset_by_wall_alignment v_edges h_edges v_walls h_walls).2 = 0) ∧
    ((∀ o ∈ offsetCandidates, matchCount v_edges v_walls o = 0) →
      (∀ o ∈ offsetCandidates, matchCount h_edges h_walls o = 0) →
      detect_offset_by_wall_alignment v_edges h_edges v_walls h_walls = (0, 0)) := by
  refine ⟨?_, ?_, ?_, ?_, ?_⟩
  · intro h; subst h
    exact bestOffsetScan_of_zero _ (fun o _ => matchCount_nil_edges v_walls o)
  · intro h; subst h
    exact bestOffsetScan_of_zero _ (fun o _ => matchCount_nil_edges h_walls o)
  · intro h; subst h
    exact bestOffsetScan_of_zero _ (fun o _ => matchCount_nil_walls v_edges o)
  · intro h; subst h
    exact bestOffsetScan_of_zero _ (fun o _ => matchCount_nil_walls h_edges o)
  · intro hv hh
    have h1 := bestOffsetScan_of_zero _ hv
    have h2 := bestOffsetScan_of_zero _ hh
    simp only [detect_offset_by_wall_alignment, bestOffset1D]
    rw [h1, h2]

lemma matchCount_single (e dx o : ℤ) :
    matchCount [e] [e + dx] o = if |o - dx| < 10 then 1 else 0 := by
  have harg : e + o - (e + dx) = o - dx := by ring
  simp only [matchCount, List.any_cons, List.any_nil, Bool.or_false, harg]
  by_cases h : |o - dx| < 10
  · rw [if_pos h]
    simp [h]
  · rw [if_neg h]
    simp [h]

lemma bestOffset1D_single (e dx : ℤ) (h : dx ∈ offsetCandidates) :
    bestOffset1D [e] [e + dx] = if dx = -50 then -50 else dx - 5 := by
  have hf : matchCount [e] [e + dx] = fun o => if |o - dx| < 10 then 1 else 0 :=
    funext (matchCount_single e dx)
  have key : ∀ d ∈ offsetCandidates,
      bestOffsetScan (fun o => if |o - d| < 10 then 1 else 0) =
        if d = -50 then -50 else d - 5 := by decide
  rw [bestOffset1D, hf]
  exact key dx h

/-- C5 counterexample: a synthetic input whose single vertical and horizontal edge
(95) lies exactly (5, 5) px from its wall (100), with 5 inside the search range and
the 10 px match tolerance; the corrector returns (0, 0), not (5, 5), because the
first grid candidate within the tolerance window wins the first-seen tie-break. -/
theorem C5_counterexample :
    detect_offset_by_wall_alignment [95] [95] [100] [100] = (0, 0) ∧
    ((0 : ℤ), (0 : ℤ)) ≠ ((5 : ℤ), (5 : ℤ)) := by
  constructor
  · decide
  · decide

/-- C5 (amended): when the single vector edge of each axis lies exactly (dx, dy)
px from its wall, with dx and dy candidate grid offsets, the corrector returns not
(dx, dy) but the first grid candidate strictly within the 10 px match tolerance of
it: (dx - 5, dy - 5), except at the grid edge -50 which is returned as is; the
result is always strictly within the match tolerance of (dx, dy). -/
theorem C5_amended (e e' dx dy : ℤ)
    (hdx : dx ∈ offsetCandidates) (hdy : dy ∈ offsetCandidates) :
    detect_offset_by_wall_alignment [e] [e'] [e + dx] [e' + dy] =
      ((if dx = -50 then -50 else dx - 5), (if dy = -50 then -50 else dy - 5)) ∧
    |(if dx = -50 then (-50 : ℤ) else dx - 5) - dx| < 10 ∧
    |(if dy = -50 then (-50 : ℤ) else dy - 5) - dy| < 10 := by
  have htol : ∀ d ∈ offsetCandidates, |(if d = -50 then (-50 : ℤ) else d - 5) - d| < 10 := by
    decide
  refine ⟨?_, htol dx hdx, htol dy hdy⟩
  simp only [detect_offset_by_wall_alignment]
  rw [bestOffset1D_single e dx hdx, bestOffset1D_single e' dy hdy]

/-- C5 witness: the amended theorem at edge 95 and offset (5, 5). -/
theorem C5_witness :
    detect_offset_by_wall_alignment [95] [95] [95 + 5] [95 + 5] =
      ((if (5 : ℤ) = -50 then -50 else 5 - 5), (if (5 : ℤ) = -50 then -50 else 5 - 5)) ∧
    |(if (5 : ℤ) = -50 then (-50 : ℤ) else 5 - 5) - 5| < 10 ∧
    |(if (5 : ℤ) = -50 then (-50 : ℤ) else 5 - 5) - 5| < 10 :=
  C5_amended 95 95 5 5 (by decide) (by decide)

/-- detect_wall_positions (src/auto_offset_correction.py line 27) / detect_walls_pil
(src/other/wall_detection.py line 33): the number of pixels of row y strictly below
the darkness threshold. -/
def countDarkRow (png : ℕ → ℕ → ℕ) (width thr y : ℕ) : ℕ :=
  ((List.range width).filter (fun x => decide (png y x < thr))).length

/-- The number of pixels of column x strictly below the darkness threshold. -/
def countDarkCol (png : ℕ → ℕ → ℕ) (height thr x : ℕ) : ℕ :=
  ((List.range height).filter (fun y => decide (png y x < thr))).length

/-- Rows marked wall-bearing: dark count strictly greater than width * frac
(detect_wall_positions lines 25-29, detect_walls_pil lines 30-35). -/
def wallRowsOf (png : ℕ → ℕ → ℕ) (height width thr : ℕ) (frac : ℚ) : List ℕ :=
  (List.range height).filter
    (fun y => decide ((width : ℚ) * frac < (countDarkRow png width thr y : ℚ)))

/-- Columns marked wall-bearing: dark count strictly greater than height * frac
(detect_wall_positions lines 31-36, detect_walls_pil lines 37-43). -/
def wallColsOf (png : ℕ → ℕ → ℕ) (height width thr : ℕ) (frac : ℚ) : List ℕ :=
  (List.range width).filter
    (fun x => decide ((height : ℚ) * frac < (countDarkCol png height thr x : ℚ)))

/-- detect_wall_positions (src/auto_offset_correction.py lines 20-38): both sweeps
with the hard-coded fraction 0.1 and the given threshold (default 50). -/
def detect_wall_positions (png : ℕ → ℕ → ℕ) (height width thr : ℕ) : List ℕ × List ℕ :=
  (wallRowsOf png height width thr (1 / 10), wallColsOf png height width thr (1 / 10))

/-- A 10×10 raster whose row 0 has exactly one dark pixel: the boundary case of a
10 % minimum-run fraction. -/
def boundaryPng : ℕ → ℕ → ℕ := fun y x => if y = 0 ∧ x = 0 then 0 else 255

/-- C6: a row is marked wall-bearing iff its dark-pixel count strictly exceeds
width * min_run_fraction, a column iff its count strictly exceeds height *
min_run_fraction (the same strict comparison, as the transpose identity shows),
and a row with exactly width * min_run_fraction dark pixels is not marked. -/
theorem C6_threshold_boundary :
    (∀ (png : ℕ → ℕ → ℕ) (height width thr : ℕ) (frac : ℚ) (y : ℕ),
        y ∈ wallRowsOf png height width thr frac ↔
          y < height ∧ (width : ℚ) * frac < (countDarkRow png width thr y : ℚ)) ∧
    (∀ (png : ℕ → ℕ → ℕ) (height width thr : ℕ) (frac : ℚ) (x : ℕ),
        x ∈ wallColsOf png height width thr frac ↔
          x < width ∧ (height : ℚ) * frac < (countDarkCol png height thr x : ℚ)) ∧
    (∀ (png : ℕ → ℕ → ℕ) (height width thr : ℕ) (frac : ℚ),
        wallColsOf png height width thr frac =
          wallRowsOf (fun x y => png y x) width height thr frac) ∧
    (countDarkRow boundaryPng 10 50 0 = 1 ∧ (10 : ℚ) * (1 / 10) = 1 ∧
      0 ∉ wallRowsOf boundaryPng 10 10 50 (1 / 10)) := by
  refine ⟨?_, ?_, ?_, ?_, ?_, ?_⟩
  · intro png height width thr frac y
    simp [wallRowsOf, List.mem_filter, List.mem_range]
  · intro png height width thr frac x
    simp [wallColsOf, List.mem_filter, List.mem_range]
  · intro png height width thr frac
    rfl
  · decide
  · norm_num
  · intro hmem
    rw [wallRowsOf, List.mem_filter] at hmem
    have h2 := of_decide_eq_true hmem.2
    rw [show countDarkRow boundaryPng 10 50 0 = 1 from by decide] at h2
    norm_num at h2

/-- int(np.mean(group)) for a list of nonnegative integer positions: the mean
truncated to an integer, i.e. the floor of the mean - Nat division of the sum by
the length. -/
def intMean (group : List ℕ) : ℕ := group.sum / group.length

/-- One iteration of group_walls' loop (src/other/wall_detection.py lines 53-58):
append w to the current group when it is within the merge threshold of the group's
last element, else close the current group at its truncated mean and start anew. -/
def groupStep (threshold : ℕ) (st : List ℕ × List ℕ) (w : ℕ) : List ℕ × List ℕ :=
  if w - st.2.getLastD 0 ≤ threshold then (st.1, st.2 ++ [w])
  else (st.1 ++ [intMean st.2], [w])

/-- group_walls (src/other/wall_detection.py lines 46-63; same logic with threshold 5
at src/png_based_detection.py lines 90-103) plus the ascending sort its callers apply
(sorted(...) at wall_detection.py line 68 / png_based_detection.py line 103), with
Python's sorted modelled by insertion sort. -/
def group_walls (walls : List ℕ) (threshold : ℕ) : List ℕ :=
  match walls with
  | [] => []
  | w :: ws =>
      let st := ws.foldl (groupStep threshold) ([], [w])
      List.insertionSort (· ≤ ·) (st.1 ++ [intMean st.2])

/-- Modelled from the spec's words for the grouping contract: split an ascending
position list into its maximal runs in which each successive gap is at most the
merge distance t. -/
def specRuns (t : ℕ) : List ℕ → List (List ℕ)
  | [] => []
  | [x] => [[x]]
  | x :: y :: rest =>
      match specRuns t (y :: rest) with
      | [] => [[x]]
      | g :: gs => if y - x ≤ t then (x :: g) :: gs else [x] :: g :: gs

/-- The runs produced by group_walls' loop when it starts from a partially built
current group: a bridge between the foldl of the code and specRuns. -/
def consumeRuns (t : ℕ) : List ℕ → List ℕ → List (List ℕ)
  | cur, [] => [cur]
  | cur, w :: ws =>
      if w - cur.getLastD 0 ≤ t then consumeRuns t (cur ++ [w]) ws
      else cur :: consumeRuns t [w] ws

lemma foldl_groupStep (t : ℕ) (xs : List ℕ) : ∀ (g cur : List ℕ),
    (xs.foldl (groupStep t) (g, cur)).1 ++ [intMean (xs.foldl (groupStep t) (g, cur)).2] =
      g ++ (consumeRuns t cur xs).map intMean := by
  induction xs with
  | nil => intro g cur; simp [consumeRuns]
  | cons w ws ih =>
      intro g cur
      simp only [List.foldl_cons, groupStep, consumeRuns]
      by_cases h : w - cur.getLastD 0 ≤ t
      · rw [if_pos h, if_pos h, ih]
      · rw [if_neg h, if_neg h, ih]
        simp

lemma specRuns_ne_nil (t : ℕ) (x : ℕ) (xs : List ℕ) : specRuns t (x :: xs) ≠ [] := by
  cases xs with
  | nil => simp [specRuns]
  | cons y ys =>
      rw [specRuns]
      cases h : specRuns t (y :: ys) with
      | nil => simp
      | cons g gs => by_cases hle : y - x ≤ t <;> simp [hle]

lemma specRuns_cons_cons (t x y : ℕ) (rest g : List ℕ) (gs : List (List ℕ))
    (h : specRuns t (y :: rest) = g :: gs) :
    specRuns t (x :: y :: rest) =
      if y - x ≤ t then (x :: g) :: gs else [x] :: g :: gs := by
  rw [specRuns, h]

lemma consumeRuns_concat (t : ℕ) (xs : List ℕ) : ∀ (a : ℕ) (c g : List ℕ)
    (gs : List (List ℕ)), specRuns t (a :: xs) = g :: gs →
    consumeRuns t (c ++ [a]) xs = (c ++ g) :: gs := by
  induction xs with
  | nil =>
      intro a c g gs h
      rw [show specRuns t [a] = [[a]] from rfl] at h
      injection h with h1 h2
      subst h1
      subst h2
      simp [consumeRuns]
  | cons x rest ih =>
      intro a c g gs h
      rcases heq : specRuns t (x :: rest) with _ | ⟨g', gs'⟩
      · exact absurd heq (specRuns_ne_nil t x rest)
      · rw [specRuns_cons_cons t a x rest g' gs' heq] at h
        rw [consumeRuns, List.getLastD_concat]
        by_cases hle : x - a ≤ t
        · rw [if_pos hle] at h
          obtain ⟨h1, h2⟩ := List.cons.injEq _ _ _ _ ▸ h
          rw [if_pos hle]
          have := ih x (c ++ [a]) g' gs' heq
          rw [this, ← h1, ← h2]
          simp
        · rw [if_neg hle] at h
          obtain ⟨h1, h2⟩ := List.cons.injEq _ _ _ _ ▸ h
          rw [if_neg hle]
          have := ih x [] g' gs' heq
          simp only [List.nil_append] at this
          rw [this, ← h1, ← h2]

lemma consumeRuns_singleton (t : ℕ) (x : ℕ) (xs : List ℕ) :
    consumeRuns t [x] xs = specRuns t (x :: xs) := by
  rcases h : specRuns t (x :: xs) with _ | ⟨g, gs⟩
  · exact absurd h (specRuns_ne_nil t x xs)
  · have := consumeRuns_concat t xs x [] g gs h
    simpa using this

lemma group_walls_runs (t : ℕ) (l : List ℕ) :
    group_walls l t = List.insertionSort (· ≤ ·) ((specRuns t l).map intMean) := by
  cases l with
  | nil => rfl
  | cons x xs =>
      show List.insertionSort (· ≤ ·) _ = _
      rw [foldl_groupStep t xs [] [x], consumeRuns_singleton]
      simp

lemma flatten_specRuns (t : ℕ) (l : List ℕ) : (specRuns t l).flatten = l := by
  induction l using specRuns.induct t with
  | case1 => simp [specRuns]
  | case2 x => simp [specRuns]
  | case3 x y rest h _ =>
      exact absurd h (specRuns_ne_nil t y rest)
  | case4 x y rest g gs h hle ih =>
      rw [specRuns_cons_cons t x y rest g gs h, if_pos hle]
      rw [h] at ih
      simp only [List.flatten_cons] at ih ⊢
      rw [List.cons_append, ih]
  | case5 x y rest g gs h hle ih =>
      rw [specRuns_cons_cons t x y rest g gs h, if_neg hle]
      rw [h] at ih
      simp only [List.flatten_cons] at ih ⊢
      rw [List.singleton_append, ih]

lemma mem_specRuns_ne_nil (t : ℕ) (l : List ℕ) : ∀ g ∈ specRuns t l, g ≠ [] := by
  induction l using specRuns.induct t with
  | case1 => simp [specRuns]
  | case2 x => simp [specRuns]
  | case3 x y rest h _ => exact absurd h (specRuns_ne_nil t y rest)
  | case4 x y rest g gs h hle ih =>
      rw [specRuns_cons_cons t x y rest g gs h, if_pos hle]
      intro g' hg'
      rcases List.mem_cons.mp hg' with h1 | h1
      · rw [h1]; simp
      · exact ih g' (by rw [h]; exact List.mem_cons_of_mem g h1)
  | case5 x y rest g gs h hle ih =>
      rw [specRuns_cons_cons t x y rest g gs h, if_neg hle]
      intro g' hg'
      rcases List.mem_cons.mp hg' with h1 | h1
      · rw [h1]; simp
      · exact ih g' (by rw [h]; exact h1)

lemma exists_list_max (g : List ℕ) (h : g ≠ []) : ∃ M ∈ g, ∀ a ∈ g, a ≤ M := by
  induction g with
  | nil => exact absurd rfl h
  | cons x xs ih =>
      cases xs with
      | nil => exact ⟨x, List.mem_singleton_self x, by simp⟩
      | cons y ys =>
          obtain ⟨M, hM, hle⟩ := ih (by simp)
          by_cases hx : x ≤ M
          · refine ⟨M, List.mem_cons_of_mem x hM, ?_⟩
            intro a ha
            rcases List.mem_cons.mp ha with h1 | h1
            · rw [h1]; exact hx
            · exact hle a h1
          · refine ⟨x, List.mem_cons_self x (y :: ys), ?_⟩
            intro a ha
            rcases List.mem_cons.mp ha with h1 | h1
            · rw [h1]
            · exact le_trans (hle a h1) (le_of_not_le hx)

lemma intMean_le_of_bound (g : List ℕ) (M : ℕ) (h : ∀ a ∈ g, a ≤ M) : intMean g ≤ M := by
  cases g with
  | nil => simp [intMean]
  | cons x xs =>
      have hsum : (x :: xs).sum ≤ (x :: xs).length * M := by
        have := List.sum_le_card_nsmul (x :: xs) M h
        simpa [smul_eq_mul] using this
      calc intMean (x :: xs) = (x :: xs).sum / (x :: xs).length := rfl
        _ ≤ ((x :: xs).length * M) / (x :: xs).length := Nat.div_le_div_right hsum
        _ = M := Nat.mul_div_cancel_left M (by simp)

lemma le_intMean_of_bound (g : List ℕ) (m : ℕ) (hne : g ≠ []) (h : ∀ a ∈ g, m ≤ a) :
    m ≤ intMean g := by
  cases g with
  | nil => exact absurd rfl hne
  | cons x xs =>
      have hsum : (x :: xs).length * m ≤ (x :: xs).sum := by
        have := List.card_nsmul_le_sum (x :: xs) m h
        simpa [smul_eq_mul] using this
      rw [intMean]
      rw [Nat.le_div_iff_mul_le (by simp : 0 < (x :: xs).length)]
      rw [mul_comm]
      exact hsum

lemma intMean_lt_intMean (g g' : List ℕ) (hg : g ≠ []) (hg' : g' ≠ [])
    (h : ∀ a ∈ g, ∀ b ∈ g', a < b) : intMean g < intMean g' := by
  obtain ⟨M, hM, hMle⟩ := exists_list_max g hg
  have h1 : intMean g ≤ M := intMean_le_of_bound g M hMle
  have h2 : M + 1 ≤ intMean g' := by
    apply le_intMean_of_bound g' (M + 1) hg'
    intro b hb
    exact Nat.succ_le_of_lt (h M hM b hb)
  omega

lemma means_pairwise (L : List (List ℕ)) (hne : ∀ g ∈ L, g ≠ [])
    (hs : L.flatten.Pairwise (· < ·)) : (L.map intMean).Pairwise (· < ·) := by
  induction L with
  | nil => simp
  | cons g L ih =>
      simp only [List.map_cons, List.pairwise_cons]
      have hflat : (g :: L).flatten = g ++ L.flatten := List.flatten_cons
      rw [hflat] at hs
      rw [List.pairwise_append] at hs
      obtain ⟨hg, hLflat, hcross⟩ := hs
      constructor
      · intro b hb
        obtain ⟨g', hg', rfl⟩ := List.mem_map.mp hb
        apply intMean_lt_intMean g g' (hne g (List.mem_cons_self g L))
          (hne g' (List.mem_cons_of_mem g hg'))
        intro a ha b' hb'
        exact hcross a ha b' (List.mem_flatten.mpr ⟨g', hg', hb'⟩)
      · exact ih (fun g' hg' => hne g' (List.mem_cons_of_mem g hg')) hLflat

/-- C7 counterexample: the input [0, 1] with merge distance 3 is a single maximal
run whose mean is 1/2; group_walls returns the wall line 0 (int(np.mean([0, 1])) = 0),
which is not the mean of the run. -/
theorem C7_counterexample :
    group_walls [0, 1] 3 = [0] ∧ ¬ ((0 : ℚ) = ((0 : ℚ) + 1) / 2) := by
  constructor
  · decide
  · norm_num

/-- C7 (amended): for every ascending list of marked wall positions, the maximal
runs in which each successive gap is at most the merge distance are each merged
into one wall line at the integer truncation (floor) of the run's mean - not the
exact mean - and the resulting merged list is in ascending order. -/
theorem C7_amended (l : List ℕ) (t : ℕ) (hl : l.Sorted (· < ·)) :
    group_walls l t = (specRuns t l).map intMean ∧
    (group_walls l t).Sorted (· ≤ ·) := by
  have hpair : ((specRuns t l).map intMean).Pairwise (· < ·) := by
    apply means_pairwise _ (mem_specRuns_ne_nil t l)
    rw [flatten_specRuns]
    exact hl
  have hsorted : ((specRuns t l).map intMean).Sorted (· ≤ ·) :=
    hpair.imp le_of_lt
  constructor
  · rw [group_walls_runs, hsorted.insertionSort_eq]
  · rw [group_walls_runs, hsorted.insertionSort_eq]
    exact hsorted

/-- C7 witness: the amended theorem at the ascending input [0, 1, 2, 10, 11] with
merge distance 3 (runs [0, 1, 2] and [10, 11], merged at 1 and 10). -/
theorem C7_witness :
    group_walls [0, 1, 2, 10, 11] 3 = (specRuns 3 [0, 1, 2, 10, 11]).map intMean ∧
    (group_walls [0, 1, 2, 10, 11] 3).Sorted (· ≤ ·) :=
  C7_amended [0, 1, 2, 10, 11] 3 (by decide)

/-- A separator character of an SVG points token string: parse_points first replaces
every comma by a space and then splits on whitespace, so commas and whitespace
both delimit tokens. -/
def isSep (c : Char) : Bool := c = ',' || c.isWhitespace

/-- Helper of tokenize: accumulate the current token (reversed) while scanning. -/
def tokenizeAux : List Char → List Char → List (List Char)
  | acc, [] => if acc = [] then [] else [acc.reverse]
  | acc, c :: rest =>
      if isSep c then
        if acc = [] then tokenizeAux [] rest else acc.reverse :: tokenizeAux [] rest
      else tokenizeAux (c :: acc) rest

/-- The token list of a points string: points_str.replace(',', ' ').split() with empty
pieces dropped, over the string's character list - the maximal runs of non-separator
characters. -/
def tokenize (s : List Char) : List (List Char) := tokenizeAux [] s

/-- The pairing comprehension of parse_points / parse_polygon_points:
[(coords[i], coords[i+1]) for i in range(0, len(coords), 2)].  On an odd-length
coords list the final index has coords[i+1] out of range, and Python raises an
IndexError, modelled as none. -/
def pairUp : List ℚ → Option (List (ℚ × ℚ))
  | [] => some []
  | [_] => none
  | x :: y :: rest => (pairUp rest).map (fun ps => (x, y) :: ps)

/-- parse_points (src/auto_offset_correction.py lines 13-18) and parse_polygon_points
(src/other/extract_rooms_from_svg.py lines 13-23): an empty string short-circuits to
the empty list; otherwise tokenize, convert each token with float() (abstracted as
the parameter toFloat), and pair consecutive coordinates. -/
def parse_points (s : List Char) (toFloat : List Char → ℚ) : Option (List (ℚ × ℚ)) :=
  if s = [] then some [] else pairUp ((tokenize s).map toFloat)

lemma pairUp_odd : ∀ (l : List ℚ), Odd l.length → pairUp l = none := by
  intro l
  induction l using pairUp.induct with
  | case1 => intro h; simp at h
  | case2 x => intro _; rfl
  | case3 x y rest ih =>
      intro h
      have : Odd rest.length := by
        simp only [List.length_cons] at h
        rcases h with ⟨k, hk⟩
        exact ⟨k - 1, by omega⟩
      rw [pairUp, ih this]
      rfl

lemma tokenizeAux_all_sep : ∀ (l : List Char), (∀ c ∈ l, isSep c = true) →
    tokenizeAux [] l = [] := by
  intro l
  induction l with
  | nil => intro _; rfl
  | cons c rest ih =>
      intro h
      rw [tokenizeAux]
      rw [if_pos (h c (List.mem_cons_self c rest))]
      rw [if_pos rfl]
      exact ih (fun c' hc' => h c' (List.mem_cons_of_mem c hc'))

/-- C8: for every points string with an odd number of numeric tokens, the parser
fails (Python raises IndexError at coords[i+1] on the final index) rather than
silently dropping the trailing token. -/
theorem C8_odd_token_failure (s : List Char) (toFloat : List Char → ℚ)
    (h : Odd (tokenize s).length) : parse_points s toFloat = none := by
  have hs : s ≠ [] := by
    intro heq
    rw [heq] at h
    simp [tokenize, tokenizeAux] at h
  rw [parse_points, if_neg hs]
  apply pairUp_odd
  rw [List.length_map]
  exact h

/-- C8 witness: the three-token string "1 2 3" makes the parser fail. -/
theorem C8_witness : parse_points ['1', ' ', '2', ' ', '3'] (fun _ => 0) = none :=
  C8_odd_token_failure ['1', ' ', '2', ' ', '3'] (fun _ => 0) (by decide)

/-- C10: a points string that is empty or contains only comma/whitespace separators
(so, no numeric token at all) parses to the empty point list without an error. -/
theorem C10_separator_only (s : List Char) (toFloat : List Char → ℚ)
    (h : ∀ c ∈ s, isSep c = true) : parse_points s toFloat = some [] := by
  by_cases hs : s = []
  · rw [parse_points, if_pos hs]
  · rw [parse_points, if_neg hs, tokenize, tokenizeAux_all_sep s h]
    rfl

/-- C10 witness: the separator-only string ", " parses to the empty list. -/
theorem C10_witness : parse_points [',', ' '] (fun _ => 0) = some [] :=
  C10_separator_only [',', ' '] (fun _ => 0) (by decide)

/-- detect_rooms_from_png (src/png_based_detection.py lines 25-30): the binary
open-space mask - a cell is space when its pixel is not strictly below the wall
threshold. -/
def spaceMask (png : ℕ → ℕ → ℕ) (thr : ℕ) (c : ℕ × ℕ) : Bool := !decide (png c.2 c.1 < thr)

/-- In-bounds test for a width × height raster, cells as (x, y). -/
def inGrid (width height : ℕ) (c : ℕ × ℕ) : Bool := decide (c.1 < width) && decide (c.2 < height)

/-- The 4-connected neighbour candidates of a cell. -/
def nbrs (c : ℕ × ℕ) : List (ℕ × ℕ) :=
  [(c.1 + 1, c.2), (c.1, c.2 + 1)] ++ (if 0 < c.1 then [(c.1 - 1, c.2)] else []) ++
    (if 0 < c.2 then [(c.1, c.2 - 1)] else [])

/-- Modelled from the spec: one growth step of scipy ndimage.label's 4-connected
component - add every in-bounds open-space neighbour of the current set. -/
def ccStep (png : ℕ → ℕ → ℕ) (thr width height : ℕ) (S : Finset (ℕ × ℕ)) : Finset (ℕ × ℕ) :=
  S ∪ S.biUnion (fun c =>
    ((nbrs c).filter (fun d => inGrid width height d && spaceMask png thr d)).toFinset)

/-- Modelled from the spec: the 4-connected open-space component of a cell, via
width * height closure steps (enough to reach every cell of the raster). -/
def ccOf (png : ℕ → ℕ → ℕ) (thr width height : ℕ) (c : ℕ × ℕ) : Finset (ℕ × ℕ) :=
  (ccStep png thr width height)^[width * height] {c}

/-- All cells of a width × height raster in row-major order, the order in which
ndimage.label numbers components. -/
def gridCells (width height : ℕ) : List (ℕ × ℕ) :=
  (List.range height).flatMap (fun y => (List.range width).map (fun x => (x, y)))

/-- The full cell set of a width × height raster. -/
def gridFinset (width height : ℕ) : Finset (ℕ × ℕ) := Finset.range width ×ˢ Finset.range height

lemma mem_gridFinset (width height : ℕ) (c : ℕ × ℕ) :
    c ∈ gridFinset width height ↔ c.1 < width ∧ c.2 < height := by
  simp [gridFinset, Finset.mem_product]

lemma ccStep_subset_grid (png : ℕ → ℕ → ℕ) (thr width height : ℕ) (S : Finset (ℕ × ℕ))
    (h : S ⊆ gridFinset width height) :
    ccStep png thr width height S ⊆ gridFinset width height := by
  intro d hd
  rcases Finset.mem_union.mp hd with h1 | h1
  · exact h h1
  · obtain ⟨c, _, hd2⟩ := Finset.mem_biUnion.mp h1
    rw [List.mem_toFinset, List.mem_filter] at hd2
    have := hd2.2
    rw [Bool.and_eq_true] at this
    have hin := this.1
    rw [inGrid, Bool.and_eq_true, decide_eq_true_iff, decide_eq_true_iff] at hin
    exact (mem_gridFinset width height d).mpr hin

lemma subset_ccStep (png : ℕ → ℕ → ℕ) (thr width height : ℕ) (S : Finset (ℕ × ℕ)) :
    S ⊆ ccStep png thr width height S := Finset.subset_union_left

lemma iterate_ccStep_le (png : ℕ → ℕ → ℕ) (thr width height : ℕ) (S : Finset (ℕ × ℕ))
    (m n : ℕ) (h : m ≤ n) :
    (ccStep png thr width height)^[m] S ⊆ (ccStep png thr width height)^[n] S := by
  induction n, h using Nat.le_induction with
  | base => exact fun c hc => hc
  | succ n hmn ih =>
      intro c hc
      rw [Function.iterate_succ_apply']
      exact subset_ccStep png thr width height _ (ih hc)

lemma iterate_ccStep_subset_grid (png : ℕ → ℕ → ℕ) (thr width height : ℕ)
    (S : Finset (ℕ × ℕ)) (h : S ⊆ gridFinset width height) (n : ℕ) :
    (ccStep png thr width height)^[n] S ⊆ gridFinset width height := by
  induction n with
  | zero => exact h
  | succ n ih =>
      rw [Function.iterate_succ_apply']
      exact ccStep_subset_grid png thr width height _ ih

lemma reach_allwhite (png : ℕ → ℕ → ℕ) (thr width height : ℕ)
    (hwhite : ∀ y x, ¬ png y x < thr) :
    ∀ (d x y : ℕ), x + y = d → x < width → y < height →
      (x, y) ∈ (ccStep png thr width height)^[d] {((0 : ℕ), (0 : ℕ))} := by
  intro d
  induction d with
  | zero =>
      intro x y hxy hx hy
      obtain ⟨rfl, rfl⟩ : x = 0 ∧ y = 0 := by omega
      simp
  | succ d ih =>
      intro x y hxy hx hy
      rw [Function.iterate_succ_apply']
      have hmask : spaceMask png thr (x, y) = true := by
        rw [spaceMask]
        simp only [decide_eq_true_iff]
        simpa using hwhite y x
      have hin : inGrid width height (x, y) = true := by
        rw [inGrid]
        simp [hx, hy]
      by_cases hxpos : 0 < x
      · have hmem := ih (x - 1) y (by omega) (by omega) hy
        apply Finset.mem_union_right
        apply Finset.mem_biUnion.mpr
        refine ⟨(x - 1, y), hmem, ?_⟩
        rw [List.mem_toFinset, List.mem_filter]
        constructor
        · have hxeq : x - 1 + 1 = x := by omega
          rw [show ((x : ℕ), y) = ((x - 1) + 1, y) from by rw [hxeq]]
          simp [nbrs]
        · rw [Bool.and_eq_true]
          exact ⟨hin, hmask⟩
      · have hypos : 0 < y := by omega
        have hmem := ih x (y - 1) (by omega) hx (by omega)
        apply Finset.mem_union_right
        apply Finset.mem_biUnion.mpr
        refine ⟨(x, y - 1), hmem, ?_⟩
        rw [List.mem_toFinset, List.mem_filter]
        constructor
        · have hyeq : y - 1 + 1 = y := by omega
          rw [show ((x : ℕ), y) = (x, (y - 1) + 1) from by rw [hyeq]]
          simp [nbrs]
        · rw [Bool.and_eq_true]
          exact ⟨hin, hmask⟩

lemma ccOf_allwhite (png : ℕ → ℕ → ℕ) (thr width height : ℕ)
    (hwhite : ∀ y x, ¬ png y x < thr) (hw : 0 < width) (hh : 0 < height) :
    ccOf png thr width height (0, 0) = gridFinset width height := by
  apply Finset.Subset.antisymm
  · apply iterate_ccStep_subset_grid
    intro c hc
    rw [Finset.mem_singleton] at hc
    rw [hc, mem_gridFinset]
    exact ⟨hw, hh⟩
  · intro c hc
    rw [mem_gridFinset] at hc
    obtain ⟨hx, hy⟩ := hc
    have hle : c.1 + c.2 ≤ width * height := by
      obtain ⟨a, rfl⟩ : ∃ a, width = a + 1 := ⟨width - 1, by omega⟩
      obtain ⟨b, rfl⟩ : ∃ b, height = b + 1 := ⟨height - 1, by omega⟩
      have : (a + 1) * (b + 1) = a * b + a + b + 1 := by ring
      omega
    have := reach_allwhite png thr width height hwhite (c.1 + c.2) c.1 c.2 rfl hx hy
    exact iterate_ccStep_le png thr width height _ _ _ hle (by simpa using this)

/-- One step of component collection: a space cell not yet assigned to a component
starts a new component (its connected closure); anything else is skipped. -/
def compStep (png : ℕ → ℕ → ℕ) (thr width height : ℕ)
    (st : List (Finset (ℕ × ℕ)) × Finset (ℕ × ℕ)) (c : ℕ × ℕ) :
    List (Finset (ℕ × ℕ)) × Finset (ℕ × ℕ) :=
  if spaceMask png thr c && !decide (c ∈ st.2) then
    (st.1 ++ [ccOf png thr width height c], st.2 ∪ ccOf png thr width height c)
  else st

/-- Modelled from the spec: the labelled 4-connected components of the open-space
mask, in first-encounter (row-major) order - the components scipy ndimage.label
yields for detect_rooms_from_png. -/
def componentsOf (png : ℕ → ℕ → ℕ) (thr width height : ℕ) : List (Finset (ℕ × ℕ)) :=
  ((gridCells width height).foldl (compStep png thr width height) ([], ∅)).1

lemma mem_gridCells (width height : ℕ) (c : ℕ × ℕ) :
    c ∈ gridCells width height ↔ c.1 < width ∧ c.2 < height := by
  cases c with
  | mk x y =>
      simp only [gridCells, List.mem_flatMap, List.mem_map, List.mem_range]
      constructor
      · rintro ⟨y', hy', x', hx', heq⟩
        obtain ⟨rfl, rfl⟩ : x' = x ∧ y' = y := by
          constructor <;> [exact congrArg Prod.fst heq; exact congrArg Prod.snd heq]
        exact ⟨hx', hy'⟩
      · rintro ⟨hx, hy⟩
        exact ⟨y, hy, x, hx, rfl⟩

lemma gridCells_cons (a b : ℕ) :
    gridCells (a + 1) (b + 1) = (0, 0) ::
      (((List.range a).map Nat.succ).map (fun x => (x, (0 : ℕ))) ++
        ((List.range b).map Nat.succ).flatMap
          (fun y => (List.range (a + 1)).map (fun x => (x, y)))) := by
  rw [gridCells, List.range_succ_eq_map, List.flatMap_cons]
  rw [List.range_succ_eq_map, List.map_cons, List.cons_append]

lemma foldl_compStep_skip (png : ℕ → ℕ → ℕ) (thr width height : ℕ) (l : List (ℕ × ℕ)) :
    ∀ (st : List (Finset (ℕ × ℕ)) × Finset (ℕ × ℕ)), (∀ c ∈ l, c ∈ st.2) →
      l.foldl (compStep png thr width height) st = st := by
  induction l with
  | nil => intro st _; rfl
  | cons c rest ih =>
      intro st h
      rw [List.foldl_cons]
      have hc : c ∈ st.2 := h c (List.mem_cons_self c rest)
      have : compStep png thr width height st c = st := by
        rw [compStep, if_neg]
        simp [hc]
      rw [this]
      exact ih st (fun c' hc' => h c' (List.mem_cons_of_mem c hc'))

lemma componentsOf_allwhite (png : ℕ → ℕ → ℕ) (thr width height : ℕ)
    (hwhite : ∀ y x, ¬ png y x < thr) (hw : 0 < width) (hh : 0 < height) :
    componentsOf png thr width height = [gridFinset width height] := by
  obtain ⟨a, rfl⟩ : ∃ a, width = a + 1 := ⟨width - 1, by omega⟩
  obtain ⟨b, rfl⟩ : ∃ b, height = b + 1 := ⟨height - 1, by omega⟩
  rw [componentsOf, gridCells_cons, List.foldl_cons]
  have hstep : compStep png thr (a + 1) (b + 1) ([], ∅) (0, 0) =
      ([gridFinset (a + 1) (b + 1)], gridFinset (a + 1) (b + 1)) := by
    rw [compStep, if_pos]
    · rw [ccOf_allwhite png thr (a + 1) (b + 1) hwhite hw hh]
      simp
    · have hmask : spaceMask png thr (0 : ℕ × ℕ) = true := by
        rw [spaceMask]
        simp only [decide_eq_true_iff, Prod.fst_zero, Prod.snd_zero]
        simpa using hwhite 0 0
      simp [hmask]
  rw [hstep]
  rw [foldl_compStep_skip]
  intro c hc
  have hmem : c ∈ gridCells (a + 1) (b + 1) := by
    rw [gridCells_cons]
    exact List.mem_cons_of_mem _ hc
  rw [mem_gridCells] at hmem
  exact (mem_gridFinset (a + 1) (b + 1) c).mpr hmem

/-- detect_rooms_from_png lines 46-56: the bounding-box record of one component -
the first and last rows/columns where the component has any pixel (np.where on
np.any per axis), guarded exactly as the source guards on np.any, with the pixel
area. -/
def roomOf (comp : Finset (ℕ × ℕ)) (height width : ℕ) : Option (List ℕ × ℕ) :=
  let rows := (List.range height).filter
    (fun y => (List.range width).any (fun x => decide ((x, y) ∈ comp)))
  let cols := (List.range width).filter
    (fun x => (List.range height).any (fun y => decide ((x, y) ∈ comp)))
  if rows ≠ [] ∧ cols ≠ [] then
    some ([cols.headD 0, rows.headD 0, cols.getLastD 0, rows.getLastD 0], comp.card)
  else none

/-- detect_rooms_from_png (src/png_based_detection.py lines 13-58): label the
4-connected components of the open-space mask (wall threshold 50) and keep, in
label order, the bounding box and area of every component whose pixel area
strictly exceeds min_room_size (default 5000). -/
def detect_rooms_from_png (png : ℕ → ℕ → ℕ) (height width : ℕ) (min_room_size : ℕ) :
    List (List ℕ × ℕ) :=
  (componentsOf png 50 width height).filterMap (fun comp =>
    if comp.card > min_room_size then roomOf comp height width else none)

lemma card_gridFinset (width height : ℕ) : (gridFinset width height).card = width * height := by
  rw [gridFinset, Finset.card_product]
  simp

lemma headD_range (n : ℕ) : (List.range n).headD 0 = 0 := by
  cases n with
  | zero => rfl
  | succ n => rw [List.range_succ_eq_map]; rfl

lemma getLastD_range (n : ℕ) : (List.range n).getLastD 0 = n - 1 := by
  cases n with
  | zero => rfl
  | succ n => rw [List.range_succ, List.getLastD_concat]; omega

lemma roomOf_grid (width height : ℕ) (hw : 0 < width) (hh : 0 < height) :
    roomOf (gridFinset width height) height width =
      some ([0, 0, width - 1, height - 1], width * height) := by
  have hrows : (List.range height).filter
      (fun y => (List.range width).any (fun x => decide ((x, y) ∈ gridFinset width height))) =
      List.range height := by
    apply List.filter_eq_self.mpr
    intro y hy
    apply List.any_eq_true.mpr
    refine ⟨0, List.mem_range.mpr hw, ?_⟩
    simp [mem_gridFinset, hw, List.mem_range.mp hy]
  have hcols : (List.range width).filter
      (fun x => (List.range height).any (fun y => decide ((x, y) ∈ gridFinset width height))) =
      List.range width := by
    apply List.filter_eq_self.mpr
    intro x hx
    apply List.any_eq_true.mpr
    refine ⟨0, List.mem_range.mpr hh, ?_⟩
    simp [mem_gridFinset, hh, List.mem_range.mp hx]
  rw [roomOf]
  simp only [hrows, hcols]
  rw [if_pos]
  · rw [headD_range, headD_range, getLastD_range, getLastD_range, card_gridFinset]
  · constructor <;> · simp [List.range_eq_nil]; omega

lemma detect_rooms_allwhite (png : ℕ → ℕ → ℕ) (height width min_room_size : ℕ)
    (hwhite : ∀ y x, ¬ png y x < 50) (hw : 0 < width) (hh : 0 < height)
    (hgt : min_room_size < width * height) :
    detect_rooms_from_png png height width min_room_size =
      [([0, 0, width - 1, height - 1], width * height)] := by
  rw [detect_rooms_from_png, componentsOf_allwhite png 50 width height hwhite hw hh]
  rw [List.filterMap_cons]
  rw [if_pos (by rw [card_gridFinset]; exact hgt)]
  rw [roomOf_grid width height hw hh]
  rfl

lemma gridCells_of_degenerate (width height : ℕ) (h : width = 0 ∨ height = 0) :
    gridCells width height = [] := by
  rcases h with h | h
  · subst h
    simp [gridCells]
  · subst h
    simp [gridCells]

lemma detect_rooms_small (png : ℕ → ℕ → ℕ) (height width min_room_size : ℕ)
    (hwhite : ∀ y x, ¬ png y x < 50) (hle : width * height ≤ min_room_size) :
    detect_rooms_from_png png height width min_room_size = [] := by
  by_cases hw : 0 < width
  · by_cases hh : 0 < height
    · rw [detect_rooms_from_png, componentsOf_allwhite png 50 width height hwhite hw hh]
      rw [List.filterMap_cons]
      rw [if_neg (by rw [card_gridFinset]; omega)]
      rfl
    · rw [detect_rooms_from_png, componentsOf, gridCells_of_degenerate width height (Or.inr (by omega))]
      rfl
  · rw [detect_rooms_from_png, componentsOf, gridCells_of_degenerate width height (Or.inl (by omega))]
    rfl

lemma countDarkRow_allwhite (png : ℕ → ℕ → ℕ) (width thr y : ℕ)
    (hwhite : ∀ y x, ¬ png y x < thr) : countDarkRow png width thr y = 0 := by
  rw [countDarkRow]
  rw [List.filter_eq_nil_iff.mpr]
  · rfl
  · intro x _
    simp [hwhite y x]

lemma countDarkCol_allwhite (png : ℕ → ℕ → ℕ) (height thr x : ℕ)
    (hwhite : ∀ y x, ¬ png y x < thr) : countDarkCol png height thr x = 0 := by
  rw [countDarkCol]
  rw [List.filter_eq_nil_iff.mpr]
  · rfl
  · intro y _
    simp [hwhite y x]

lemma detect_wall_positions_allwhite (png : ℕ → ℕ → ℕ) (height width thr : ℕ)
    (hwhite : ∀ y x, ¬ png y x < thr) :
    detect_wall_positions png height width thr = ([], []) := by
  have h1 : wallRowsOf png height width thr (1 / 10) = [] := by
    rw [wallRowsOf]
    apply List.filter_eq_nil_iff.mpr
    intro y _
    rw [countDarkRow_allwhite png width thr y hwhite]
    simp only [Nat.cast_zero, decide_eq_true_iff, not_lt]
    positivity
  have h2 : wallColsOf png height width thr (1 / 10) = [] := by
    rw [wallColsOf]
    apply List.filter_eq_nil_iff.mpr
    intro x _
    rw [countDarkCol_allwhite png height thr x hwhite]
    simp only [Nat.cast_zero, decide_eq_true_iff, not_lt]
    positivity
  rw [detect_wall_positions, h1, h2]

/-- C9 (amended): on a raster with no pixel below the darkness threshold the wall
detector returns empty wall lists and the room segmenter raises no exception (it
is a total function), but the segmenter's room list is empty only when the image
area is at most min_room_size; an all-white raster whose area exceeds
min_room_size yields exactly one room covering the whole image. -/
theorem C9_amended (png : ℕ → ℕ → ℕ) (height width min_room_size : ℕ)
    (hwhite : ∀ y x, ¬ png y x < 50) :
    detect_wall_positions png height width 50 = ([], []) ∧
    (min_room_size < width * height → 0 < width → 0 < height →
      detect_rooms_from_png png height width min_room_size =
        [([0, 0, width - 1, height - 1], width * height)]) ∧
    (width * height ≤ min_room_size →
      detect_rooms_from_png png height width min_room_size = []) := by
  refine ⟨detect_wall_positions_allwhite png height width 50 hwhite, ?_, ?_⟩
  · intro hgt hw hh
    exact detect_rooms_allwhite png height width min_room_size hwhite hw hh hgt
  · intro hle
    exact detect_rooms_small png height width min_room_size hwhite hle

/-- C9 counterexample: the all-white 71×71 raster (area 5041 > 5000 = default
min_room_size) makes the room segmenter return one whole-image room, not the
empty room list the claim demands. -/
theorem C9_counterexample :
    detect_rooms_from_png (fun _ _ => 255) 71 71 5000 = [([0, 0, 70, 70], 5041)] ∧
    ([([0, 0, 70, 70], 5041)] : List (List ℕ × ℕ)) ≠ [] := by
  constructor
  · have := detect_rooms_allwhite (fun _ _ => 255) 71 71 5000
      (by intro y x; norm_num) (by norm_num) (by norm_num) (by norm_num)
    norm_num at this
    exact this
  · simp

/-- C9 witness: the amended theorem at the all-white 71×71 raster with the default
minimum room size 5000. -/
theorem C9_witness :
    detect_wall_positions (fun _ _ => 255) 71 71 50 = ([], []) ∧
    (5000 < 71 * 71 → 0 < 71 → 0 < 71 →
      detect_rooms_from_png (fun _ _ => 255) 71 71 5000 = [([0, 0, 71 - 1, 71 - 1], 71 * 71)]) ∧
    (71 * 71 ≤ 5000 → detect_rooms_from_png (fun _ _ => 255) 71 71 5000 = []) :=
  C9_amended (fun _ _ => 255) 71 71 5000 (by intro y x; norm_num)

/-- C2 witness: the amended theorem's exact-recovery part at the box
(10, 20, 30, 40), original size 100×200, letterboxed to 640×640 - a case where
both truncated dimensions (320 and 640) equal the exact scaled dimensions, so the
round trip is exact. -/
theorem C2_witness :
    invertLetterbox (resize_image_box ⟨10, 20, 30, 40⟩ 100 200 640 640) 100 200 640 640 =
      ⟨10, 20, 30, 40⟩ :=
  (C2_amended ⟨10, 20, 30, 40⟩ 100 200 640 640 (by norm_num) (by norm_num) (by norm_num)
      (by norm_num)).2.1
    (by norm_num [letterboxScale, letterboxNewW, min_def, pyInt])
    (by norm_num [letterboxScale, letterboxNewH, min_def, pyInt])
